import Mathlib

/-!
Verification development for the `collector-ga` batching collector
(`src/index.ts`).  The TypeScript source is shallowly embedded:

* JavaScript scalar values that flow through tracking entries are modelled
  by `JVal` (numbers restricted to integers — every value the program or
  its tests manipulate is an integer).
* A `TrackingInfo` argument is modelled by `Entry`: either `Entry.atom`
  (a missing / null / non-object argument, on which every lodash `get`
  yields `undefined`) or `Entry.obj` carrying the `type`, `label`,
  `count` and `duration` properties plus the `data` object (`none` when
  `data` is absent or not an object).
* A GA hit object under construction is an insertion-ordered association
  list, matching JavaScript object key order for the non-numeric keys the
  program uses.
* The queue of serialized hit payloads holds `String`s; `String(hit)` on a
  string is the string itself, and its `.length` is the character count.
* The asynchronous send machinery is embedded as a small-step transition
  system (`SysStep`): the JS event loop suspends `createPayload` only at
  `await sending.ready()` and at the awaited `send` call, so an attempt
  decomposes into an atomic acquire/extract segment and an atomic
  settle segment (fulfilled or rejected), the latter running the
  `catch`/`finally` blocks.
-/

namespace CollectorGA

/-- A JavaScript scalar value as used by the collector. -/
inductive JVal where
  | undef
  | null
  | str (s : String)
  | num (n : Int)
  | bool (b : Bool)
deriving DecidableEq, Repr

/-- JavaScript `String(value)` for the scalar values we model. -/
def jsToString : JVal → String
  | JVal.undef => "undefined"
  | JVal.null => "null"
  | JVal.str s => s
  | JVal.num n => toString n
  | JVal.bool b => if b then "true" else "false"

/-- A `TrackingInfo` argument: either not an object (so every property
read yields `undefined`), or an object with the properties the source
reads.  `data` is `none` when absent or not itself an object. -/
inductive Entry where
  | atom
  | obj (type label count duration : JVal)
        (data : Option (List (String × JVal)))
deriving DecidableEq, Repr

/-- lodash `get(entry, 'type')`. -/
def typeOf : Entry → JVal
  | Entry.atom => JVal.undef
  | Entry.obj t _ _ _ _ => t

/-- lodash `get(entry, 'label')`. -/
def labelOf : Entry → JVal
  | Entry.atom => JVal.undef
  | Entry.obj _ l _ _ _ => l

/-- lodash `get(entry, 'count')`. -/
def countOf : Entry → JVal
  | Entry.atom => JVal.undef
  | Entry.obj _ _ c _ _ => c

/-- lodash `get(entry, 'duration')`. -/
def durationOf : Entry → JVal
  | Entry.atom => JVal.undef
  | Entry.obj _ _ _ d _ => d

/-- The `data` object of an entry, when it is an object. -/
def dataOf : Entry → Option (List (String × JVal))
  | Entry.atom => none
  | Entry.obj _ _ _ _ d => d

/-- lodash `get(entry, 'data.<k>')`: `undefined` when `data` is missing,
otherwise the property value (`undefined` when the key is absent). -/
def dataGet (e : Entry) (k : String) : JVal :=
  match dataOf e with
  | none => JVal.undef
  | some m => ((m.find? (fun kv => kv.fst == k)).map (fun kv => kv.snd)).getD JVal.undef

/-- lodash `get`'s default-value rule: the fallback replaces only
`undefined`. -/
def getOr (v fallback : JVal) : JVal :=
  if v = JVal.undef then fallback else v

/-- A GA hit object under construction: an insertion-ordered association
list of property names to values. -/
abbrev Hit := List (String × JVal)

/-- Property read on a hit object. -/
def hitGet (h : Hit) (k : String) : Option JVal :=
  (h.find? (fun kv => kv.fst == k)).map (fun kv => kv.snd)

/-- JavaScript property assignment `obj[k] = v`: overwrite the existing
property in place when the key is present (JS object keys are unique, so
updating the first occurrence is exact), otherwise append the new
property at the end, matching JS object key order. -/
def setKey : Hit → String → JVal → Hit
  | [], k, v => [(k, v)]
  | kv :: t, k, v => if kv.fst == k then (k, v) :: t else kv :: setKey t k v

/-- `Object.assign(hit, dims)`: copy every entry of `dims`, in order,
onto `hit`. -/
def assign (h : Hit) (dims : Hit) : Hit :=
  dims.foldl (fun acc kv => setKey acc kv.fst kv.snd) h

/-- The regular expression `^dimension\d+$`, tested character by
character: the first nine characters are `dimension` and the non-empty
remainder is all ASCII digits. -/
def isDimensionKey (k : String) : Bool :=
  (k.data.take 9 == "dimension".data) &&
    !(k.data.drop 9).isEmpty && (k.data.drop 9).all Char.isDigit

/-- The value stored for a dimension key:
`value == null ? null : String(value)` (JS `== null` is true exactly for
`null` and `undefined`). -/
def coerceDim (v : JVal) : JVal :=
  if v = JVal.null ∨ v = JVal.undef then JVal.null
  else JVal.str (jsToString v)

/-- `onlyDimensions` from the source: the reducer that keeps only
`dimension<N>` keys, mapping each kept value through `coerceDim`. -/
def onlyDimensions (m : Hit) (kv : String × JVal) : Hit :=
  if isDimensionKey kv.fst then setKey m kv.fst (coerceDim kv.snd)
  else m

/-- The dimension map built by `Object.entries(data).reduce(onlyDimensions, {})`. -/
def dims (data : List (String × JVal)) : Hit :=
  data.foldl onlyDimensions []

/-- `withDimensions` from the source: merge the entry's dimension keys
onto the hit (`get(entry, 'data', {})` defaults a missing `data` to an
empty object). -/
def withDimensions (h : Hit) (e : Entry) : Hit :=
  assign h (dims ((dataOf e).getD []))

/-- The `FATAL` severity constant from the external errors module. -/
def FATAL : JVal := JVal.str "FATAL"

/-- `asEvent` from the source. -/
def asEvent (e : Entry) : Option Hit :=
  if typeOf e = JVal.str "event" then
    some (withDimensions [
      ("hitType", JVal.str "event"),
      ("eventAction", getOr (dataGet e "action") (labelOf e)),
      ("eventLabel", getOr (dataGet e "label") (dataGet e "action")),
      ("eventCategory", dataGet e "category"),
      ("eventValue", getOr (dataGet e "value") (countOf e))
    ] e)
  else none

/-- `asTimer` from the source. -/
def asTimer (e : Entry) : Option Hit :=
  if typeOf e = JVal.str "timer" then
    some (withDimensions [
      ("hitType", JVal.str "timing"),
      ("timingValue", durationOf e),
      ("timingCategory", dataGet e "category"),
      ("timingLabel", dataGet e "variable"),
      ("timingVar", labelOf e)
    ] e)
  else none

/-- `asError` from the source. -/
def asError (e : Entry) : Option Hit :=
  if typeOf e = JVal.str "error" then
    some (withDimensions [
      ("hitType", JVal.str "exception"),
      ("exDescription", labelOf e),
      ("exFatal", JVal.bool (dataGet e "severity" = FATAL))
    ] e)
  else none

/-- `convertToHit`: `asEvent(entry) || asTimer(entry) || asError(entry)`
(a hit object is truthy, `undefined` is falsy). -/
def convertToHit (e : Entry) : Option Hit :=
  match asEvent e with
  | some h => some h
  | none =>
    match asTimer e with
    | some h => some h
    | none => asError e

/-! ### Size/validity filter (`isValidHit`, `indexBySize`) and batching -/

/-- `MAX_SLOTS` from the source (`20`). -/
def MAX_SLOTS : Int := 20

/-- `MAX_HITS_PER_BATCH` from the source (`20`). -/
def MAX_HITS_PER_BATCH : Nat := 20

/-- `MAX_HIT_SIZE_KB` from the source (`8 << 10 = 8192`). -/
def MAX_HIT_SIZE_KB : Nat := 8192

/-- `MAX_BATCH_SIZE_KB` from the source (`16 << 10 = 16384`). -/
def MAX_BATCH_SIZE_KB : Nat := 16384

/-- `isValidHit` from the source: `String(hit).length <= MAX_HIT_SIZE_KB`
(the queued hits are already strings). -/
def isValidHit (h : String) : Bool :=
  h.length ≤ MAX_HIT_SIZE_KB

/-- The loop of `indexBySize`: `i` is the loop counter, `bytes` the
accumulated length; the body adds `String(array[i]).length` and breaks
when `bytes + i > size`. -/
def indexBySizeGo (size : Nat) : List String → Nat → Nat → Nat
  | [], i, _ => i
  | h :: rest, i, bytes =>
    if size < bytes + h.length + i then i
    else indexBySizeGo size rest (i + 1) (bytes + h.length)

/-- `indexBySize` from the source. -/
def indexBySize (q : List String) (size : Nat) : Nat :=
  indexBySizeGo size q 0 0

/-- JavaScript `array.join('\n')`. -/
def joinN : List String → String
  | [] => ""
  | h :: rest => rest.foldl (fun acc x => acc ++ "\n" ++ x) h

/-- Character length of the newline-join of a list of strings. -/
def jlen : List String → Nat
  | [] => 0
  | [h] => h.length
  | h :: rest => h.length + 1 + jlen rest

/-- The batch size chosen by `createPayload`:
`Math.min(MAX_HITS_PER_BATCH, indexBySize(queue, MAX_BATCH_SIZE_KB))`. -/
def batchCount (q : List String) : Nat :=
  min MAX_HITS_PER_BATCH (indexBySize q MAX_BATCH_SIZE_KB)

/-! ### The send machinery as a transition system

`createPayload` suspends only at `await sending.ready()` and at the
awaited `send(...)` call.  An invocation (an "attempt") therefore has
two atomic segments:

* acquire: `sending.ready()` resolves (the auto-reset signal is set) and
  resets the signal, then the batch is spliced off the queue and the
  transport is invoked — modelled by `acquireResult`;
* settle: the transport call settles; on rejection the `catch` block
  runs `queue.unshift(...payload)`, and in both cases the `finally`
  block runs `sending.set()` — modelled by `settleOkResult` /
  `settleFailResult`.  The `catch` block swallows the error: nothing is
  appended to the operator-visible error channel (`errors` below models
  whatever failure reports the collector emits; the source emits none).

`enqueueResult` models the `sendHitTask` callback (`enqueue` in the
source), `spawnResult` the scheduling of a new `createPayload`
invocation by `scheduleSend` (or a flush). -/

/-- The phase of one `createPayload` invocation. -/
inductive APhase where
  | waiting
  | running (batch : List String)
  | done
deriving DecidableEq, Repr

/-- State of the queue/send machinery of one collector instance. -/
structure Sys where
  /-- The `queue` array of serialized hit payloads. -/
  queue : List String
  /-- Whether the `sending` auto-reset signal is set (the send lock is
  free). -/
  lock : Bool
  /-- The outstanding `createPayload` invocations, in creation order. -/
  attempts : List APhase
  /-- Successful transmissions: each entry is the batch handed to the
  transport by one fulfilled `send` call. -/
  sent : List (List String)
  /-- Operator-visible failure reports emitted by the collector.  The
  source's `catch` block only re-queues the batch, so no transition
  writes this field. -/
  errors : List String
deriving DecidableEq, Repr

/-- The initial state: empty queue, signal set (`autoReset(true)`), no
attempts, nothing sent, nothing reported. -/
def initSys : Sys :=
  { queue := [], lock := true, attempts := [], sent := [], errors := [] }

/-- The `enqueue` callback: push the payload only when `isValidHit`
accepts it; an oversized payload changes nothing (in particular no
error is recorded). -/
def enqueueResult (s : Sys) (h : String) : Sys :=
  if isValidHit h then { s with queue := s.queue ++ [h] } else s

/-- A new `createPayload` invocation is scheduled. -/
def spawnResult (s : Sys) : Sys :=
  { s with attempts := s.attempts ++ [APhase.waiting] }

/-- Attempt `i` acquires the send lock and splices its batch off the
front of the queue. -/
def acquireResult (s : Sys) (i : Nat) : Sys :=
  { s with lock := false,
           queue := s.queue.drop (batchCount s.queue),
           attempts := s.attempts.set i (APhase.running (s.queue.take (batchCount s.queue))) }

/-- The transport call of attempt `i` fulfils: the batch is recorded as
sent and the `finally` block sets the signal. -/
def settleOkResult (s : Sys) (i : Nat) (b : List String) : Sys :=
  { s with lock := true,
           attempts := s.attempts.set i APhase.done,
           sent := s.sent ++ [b] }

/-- The transport call of attempt `i` rejects: the `catch` block
prepends the whole batch back onto the queue (`queue.unshift(...payload)`),
the error is swallowed, and the `finally` block sets the signal. -/
def settleFailResult (s : Sys) (i : Nat) (b : List String) : Sys :=
  { s with lock := true,
           attempts := s.attempts.set i APhase.done,
           queue := b ++ s.queue }

/-- One event-loop step of the send machinery. -/
inductive SysStep : Sys → Sys → Prop where
  | enqueue (s : Sys) (h : String) : SysStep s (enqueueResult s h)
  | spawn (s : Sys) : SysStep s (spawnResult s)
  | acquire (s : Sys) (i : Nat) (hl : s.lock = true)
      (hw : s.attempts[i]? = some APhase.waiting) :
      SysStep s (acquireResult s i)
  | settleOk (s : Sys) (i : Nat) (b : List String)
      (hr : s.attempts[i]? = some (APhase.running b)) :
      SysStep s (settleOkResult s i b)
  | settleFail (s : Sys) (i : Nat) (b : List String)
      (hr : s.attempts[i]? = some (APhase.running b)) :
      SysStep s (settleFailResult s i b)

/-- Reachability from the initial state. -/
inductive SysReach : Sys → Prop where
  | init : SysReach initSys
  | step {s s' : Sys} : SysReach s → SysStep s s' → SysReach s'

/-- Whether an attempt phase is an in-flight transmission. -/
def isRunningB : APhase → Bool
  | APhase.running _ => true
  | _ => false

/-- Number of in-flight transmissions. -/
def runningCount (s : Sys) : Nat :=
  s.attempts.countP isRunningB

/-! ### The `collect` entry point and the rate budget -/

/-- The closure state read and written by `collect`, `increment` and
`dispose`: the `disposed` flag, the `slots` counter, and the constant
`SLOT_INTERVAL` (captured at construction, `arguments[1] || 1000`). -/
structure CState where
  disposed : Bool
  slots : Int
  interval : Nat
deriving DecidableEq, Repr

/-- The observable action a single `collect(entry)` call performs. -/
inductive CEffect where
  /-- The call returns having done nothing. -/
  | noop
  /-- `setTimeout(collect, SLOT_INTERVAL, entry)`: the exact entry is
  offered to `collect` again after `delayMs` milliseconds. -/
  | reschedule (delayMs : Nat) (e : Entry)
  /-- `ga('send', hit)`: the converted hit is handed to the analytics
  object (one slot was consumed). -/
  | sendToGa (h : Hit)
deriving DecidableEq, Repr

/-- The collector's state right after construction. -/
def initC (interval : Nat) : CState :=
  { disposed := false, slots := MAX_SLOTS, interval := interval }

/-- `increment` from the source: `slots = Math.min(MAX_SLOTS, slots + 2)`,
run on every `SLOT_INTERVAL` tick. -/
def increment (s : CState) : CState :=
  { s with slots := min MAX_SLOTS (s.slots + 2) }

/-- `dispose` from the source: set the flag (and clear the interval
timer, which the state does not track). -/
def dispose (s : CState) : CState :=
  { s with disposed := true }

/-- `collect` from the source: no-op when disposed; reschedule the same
entry after one tick when `slots < 1`; otherwise convert, and on a
successful conversion decrement `slots` and send the hit to `ga`. -/
def collect (s : CState) (e : Entry) : CState × CEffect :=
  if s.disposed then (s, CEffect.noop)
  else if s.slots < 1 then (s, CEffect.reschedule s.interval e)
  else
    match convertToHit e with
    | some h => ({ s with slots := s.slots - 1 }, CEffect.sendToGa h)
    | none => (s, CEffect.noop)

/-- One step of the collector closure state: a replenishment tick, a
`collect` call with some entry, or disposal. -/
inductive CStep : CState → CState → Prop where
  | tick (s : CState) : CStep s (increment s)
  | offer (s : CState) (e : Entry) : CStep s (collect s e).fst
  | disp (s : CState) : CStep s (dispose s)

/-- Collector states reachable from construction (any tick interval). -/
inductive CReach : CState → Prop where
  | init (interval : Nat) : CReach (initC interval)
  | step {s s' : CState} : CReach s → CStep s s' → CReach s'

/-! ### Auxiliary definitions used by the verification -/

/-- Reference recursion for the `indexBySize` loop: `c` is the running
total `bytes + i` (accumulated length plus one separator per item taken
so far); an item is taken when adding its length keeps the total within
`size`. -/
def fitCount (size : Nat) : Nat → List String → Nat
  | _, [] => 0
  | c, h :: rest =>
    if size < c + h.length then 0
    else 1 + fitCount size (c + h.length + 1) rest

/-- Every payload in the list passes the single-hit size cap. -/
def allValid (l : List String) : Prop :=
  ∀ h ∈ l, h.length ≤ MAX_HIT_SIZE_KB

/-- Size invariant of the send machinery: every queued payload, every
in-flight batch and every transmitted batch consists of payloads within
the single-hit cap. -/
def SysValid (s : Sys) : Prop :=
  allValid s.queue ∧
  (∀ p ∈ s.attempts, ∀ b, p = APhase.running b → allValid b) ∧
  (∀ b ∈ s.sent, allValid b)

/-- Mutual-exclusion invariant of the send lock: at most one in-flight
transmission, and none at all while the signal is set. -/
def MutexInv (s : Sys) : Prop :=
  runningCount s ≤ 1 ∧ (s.lock = true → runningCount s = 0)

/-- The scenario entry of claim C8:
`{type:'event', label:'L', data:{action:'A', category:'C', value:5}}`. -/
def eventEntryLACV : Entry :=
  Entry.obj (JVal.str "event") (JVal.str "L") JVal.undef JVal.undef
    (some [("action", JVal.str "A"), ("category", JVal.str "C"),
           ("value", JVal.num 5)])

/-- An event entry whose `data` carries a numeric custom dimension:
`{type:'event', data:{dimension1:5}}`. -/
def numericDimensionEntry : Entry :=
  Entry.obj (JVal.str "event") JVal.undef JVal.undef JVal.undef
    (some [("dimension1", JVal.num 5)])

/-- A hit payload of exactly `MAX_HIT_SIZE_KB` characters. -/
def maxSizeHit : String := String.mk (List.replicate 8192 'x')

/-- A hit payload one character over the single-hit cap. -/
def oversizedHit : String := String.mk (List.replicate 8193 'x')

/-- The hit produced by `convertToHit` for `eventEntryLACV`. -/
def hitLACV : Hit :=
  [("hitType", JVal.str "event"),
   ("eventAction", JVal.str "A"),
   ("eventLabel", JVal.str "A"),
   ("eventCategory", JVal.str "C"),
   ("eventValue", JVal.num 5)]

/-- A live collector state whose rate budget is exhausted. -/
def zeroSlotState : CState :=
  { disposed := false, slots := 0, interval := 7 }

/-- A system state with one queued payload and one scheduled attempt,
ready to acquire the lock. -/
def readyState : Sys :=
  spawnResult (enqueueResult initSys "a")

/-- Failure scenario, first attempt at the point where its batch
`["a", "b"]` is in flight. -/
def failMidState : Sys :=
  acquireResult (spawnResult (enqueueResult (enqueueResult initSys "a") "b")) 0

/-- Failure scenario, right after the transport rejected the first
batch: the batch is back at the front of the queue. -/
def failedState : Sys :=
  settleFailResult failMidState 0 ["a", "b"]

/-- Failure scenario continued: the payload `"c"` arrives after the
failure, a second attempt runs and its transport call succeeds. -/
def recoveredState : Sys :=
  settleOkResult
    (acquireResult (spawnResult (enqueueResult failedState "c")) 1) 1
    ["a", "b", "c"]

/-! ## Lemmas: newline join and `indexBySize` -/

theorem jlen_cons_of_ne (h : String) (l : List String) (hl : l ≠ []) :
    jlen (h :: l) = h.length + 1 + jlen l := by
  cases l with
  | nil => exact absurd rfl hl
  | cons x t => rfl

theorem length_le_jlen_cons (h : String) (l : List String) :
    h.length ≤ jlen (h :: l) := by
  cases l with
  | nil => exact Nat.le_refl _
  | cons x t => simp [jlen]; omega

theorem newline_length : ("\n" : String).length = 1 := by decide

theorem foldl_join_length (l : List String) :
    ∀ acc : String,
      (l.foldl (fun a x => a ++ "\n" ++ x) acc).length =
        acc.length + (l.map String.length).sum + l.length := by
  induction l with
  | nil => intro acc; simp
  | cons x t ih =>
    intro acc
    simp only [List.foldl_cons, ih, String.length_append, newline_length,
      List.map_cons, List.sum_cons, List.length_cons]
    omega

theorem jlen_cons_sum (t : List String) :
    ∀ h : String, jlen (h :: t) = h.length + (t.map String.length).sum + t.length := by
  induction t with
  | nil => intro h; simp [jlen]
  | cons x r ih =>
    intro h
    rw [jlen_cons_of_ne h (x :: r) (by simp), ih x]
    simp
    omega

theorem joinN_length (l : List String) : (joinN l).length = jlen l := by
  cases l with
  | nil => rfl
  | cons h t => rw [joinN, foldl_join_length, jlen_cons_sum]

theorem indexBySizeGo_eq (size : Nat) (l : List String) :
    ∀ i bytes, indexBySizeGo size l i bytes = i + fitCount size (bytes + i) l := by
  induction l with
  | nil => intro i bytes; simp [indexBySizeGo, fitCount]
  | cons h t ih =>
    intro i bytes
    rw [indexBySizeGo, fitCount]
    by_cases hc : size < bytes + h.length + i
    · rw [if_pos hc, if_pos (by omega)]
      omega
    · rw [if_neg hc, if_neg (by omega), ih]
      have harg : bytes + h.length + (i + 1) = bytes + i + h.length + 1 := by omega
      rw [harg]
      omega

theorem fitCount_le_length (size : Nat) (l : List String) :
    ∀ c, fitCount size c l ≤ l.length := by
  induction l with
  | nil => intro c; simp [fitCount]
  | cons h t ih =>
    intro c
    rw [fitCount]
    by_cases hc : size < c + h.length
    · rw [if_pos hc]; simp
    · rw [if_neg hc]
      have := ih (c + h.length + 1)
      simp
      omega

theorem fitCount_fits (size : Nat) (l : List String) :
    ∀ c, fitCount size c l = 0 ∨ c + jlen (l.take (fitCount size c l)) ≤ size := by
  induction l with
  | nil => intro c; exact Or.inl rfl
  | cons h t ih =>
    intro c
    rw [fitCount]
    by_cases hc : size < c + h.length
    · rw [if_pos hc]; exact Or.inl rfl
    · rw [if_neg hc]
      refine Or.inr ?_
      by_cases hn : fitCount size (c + h.length + 1) t = 0
      · simp [hn, List.take, jlen]
        omega
      · have htake : t.take (fitCount size (c + h.length + 1) t) ≠ [] := by
          intro habs
          rcases List.take_eq_nil_iff.mp habs with h1 | h1
          · exact hn h1
          · rw [h1] at hn
            exact hn rfl
        have hfit := (ih (c + h.length + 1)).resolve_left hn
        rw [show 1 + fitCount size (c + h.length + 1) t =
              fitCount size (c + h.length + 1) t + 1 by omega]
        rw [List.take_succ_cons, jlen_cons_of_ne h _ htake]
        omega

theorem fitCount_maximal (size : Nat) (l : List String) :
    ∀ c m, m ≤ l.length → c + jlen (l.take m) ≤ size → m ≤ fitCount size c l := by
  induction l with
  | nil =>
    intro c m hm _
    simp at hm
    simp [fitCount, hm]
  | cons h t ih =>
    intro c m hm hfit
    cases m with
    | zero => exact Nat.zero_le _
    | succ m =>
      rw [List.take_succ_cons] at hfit
      have hhead : c + h.length ≤ size := by
        have := length_le_jlen_cons h (t.take m)
        omega
      rw [fitCount, if_neg (by omega)]
      by_cases hm0 : m = 0
      · omega
      · have htne : t.take m ≠ [] := by
          intro habs
          rcases List.take_eq_nil_iff.mp habs with h1 | h1
          · exact hm0 h1
          · rw [h1] at hm
            simp at hm
            omega
        rw [jlen_cons_of_ne h _ htne] at hfit
        have := ih (c + h.length + 1) m (by simp at hm; omega) (by omega)
        omega

theorem indexBySize_le_length (q : List String) (size : Nat) :
    indexBySize q size ≤ q.length := by
  rw [indexBySize, indexBySizeGo_eq]
  simpa using fitCount_le_length size q 0

theorem jlen_take_indexBySize (q : List String) (size : Nat) :
    jlen (q.take (indexBySize q size)) ≤ size := by
  rw [indexBySize, indexBySizeGo_eq]
  rcases fitCount_fits size q 0 with h0 | hle
  · simp [h0, jlen]
  · simpa using hle

theorem indexBySize_maximal (q : List String) (size m : Nat)
    (hm : m ≤ q.length) (hfit : jlen (q.take m) ≤ size) :
    m ≤ indexBySize q size := by
  rw [indexBySize, indexBySizeGo_eq]
  simpa using fitCount_maximal size q 0 m hm (by omega)

theorem jlen_take_le (l : List String) : ∀ k, jlen (l.take k) ≤ jlen l := by
  induction l with
  | nil => intro k; simp
  | cons h t ih =>
    intro k
    cases k with
    | zero => simp [jlen]
    | succ k =>
      rw [List.take_succ_cons]
      by_cases htk : t.take k = []
      · rw [htk]
        exact length_le_jlen_cons h t
      · have htne : t ≠ [] := by
          intro habs
          rw [habs] at htk
          simp at htk
        rw [jlen_cons_of_ne h _ htk, jlen_cons_of_ne h _ htne]
        have := ih k
        omega

theorem jlen_take_mono (q : List String) (m n : Nat) (hmn : m ≤ n) :
    jlen (q.take m) ≤ jlen (q.take n) := by
  have : q.take m = (q.take n).take m := by
    rw [List.take_take, Nat.min_eq_left hmn]
  rw [this]
  exact jlen_take_le (q.take n) m

/-! ## Lemmas: send-lock mutual exclusion -/

theorem countP_set {α : Type} (p : α → Bool) (l : List α) :
    ∀ (i : Nat) (x y : α), l[i]? = some y →
      (l.set i x).countP p + (if p y then 1 else 0) =
        l.countP p + (if p x then 1 else 0) := by
  induction l with
  | nil => intro i x y h; simp at h
  | cons a t ih =>
    intro i x y h
    cases i with
    | zero =>
      simp at h
      subst h
      simp [List.countP_cons]
      omega
    | succ i =>
      simp only [List.getElem?_cons_succ] at h
      simp only [List.set_cons_succ, List.countP_cons]
      have := ih i x y h
      omega

theorem runningCount_enqueue (s : Sys) (h : String) :
    runningCount (enqueueResult s h) = runningCount s := by
  rw [enqueueResult]
  by_cases hv : isValidHit h <;> simp [hv, runningCount]

theorem lock_enqueue (s : Sys) (h : String) :
    (enqueueResult s h).lock = s.lock := by
  rw [enqueueResult]
  by_cases hv : isValidHit h <;> simp [hv]

theorem mutexInv_step (s s' : Sys) (hstep : SysStep s s') (ih : MutexInv s) :
    MutexInv s' := by
  obtain ⟨ih1, ih2⟩ := ih
  cases hstep with
  | enqueue h =>
    constructor
    · rw [runningCount_enqueue]; exact ih1
    · rw [runningCount_enqueue, lock_enqueue]; exact ih2
  | spawn =>
    have hc : runningCount (spawnResult s) = runningCount s := by
      simp [runningCount, spawnResult, List.countP_append, isRunningB]
    constructor
    · rw [hc]; exact ih1
    · intro hl
      rw [hc]
      exact ih2 hl
  | acquire i hl hw =>
    have h0 : List.countP isRunningB s.attempts = 0 := ih2 hl
    have hset := countP_set isRunningB s.attempts i
      (APhase.running (s.queue.take (batchCount s.queue))) APhase.waiting hw
    simp [isRunningB] at hset
    constructor
    · show List.countP isRunningB (s.attempts.set i _) ≤ 1
      omega
    · intro habs
      simp [acquireResult] at habs
  | settleOk i b hr =>
    have hle : List.countP isRunningB s.attempts ≤ 1 := ih1
    have hset := countP_set isRunningB s.attempts i APhase.done (APhase.running b) hr
    simp [isRunningB] at hset
    constructor
    · show List.countP isRunningB (s.attempts.set i _) ≤ 1
      omega
    · intro _
      show List.countP isRunningB (s.attempts.set i _) = 0
      omega
  | settleFail i b hr =>
    have hle : List.countP isRunningB s.attempts ≤ 1 := ih1
    have hset := countP_set isRunningB s.attempts i APhase.done (APhase.running b) hr
    simp [isRunningB] at hset
    constructor
    · show List.countP isRunningB (s.attempts.set i _) ≤ 1
      omega
    · intro _
      show List.countP isRunningB (s.attempts.set i _) = 0
      omega

theorem mutexInv_of_reach (s : Sys) (hs : SysReach s) : MutexInv s := by
  induction hs with
  | init =>
    constructor
    · simp [runningCount, initSys]
    · intro _; simp [runningCount, initSys]
  | step hprev hstep ih => exact mutexInv_step _ _ hstep ih

/-! ## Lemmas: single-hit size cap is an invariant -/

theorem isValidHit_iff (h : String) :
    isValidHit h = true ↔ h.length ≤ MAX_HIT_SIZE_KB := by
  rw [isValidHit]
  exact decide_eq_true_iff

theorem sysValid_step (s s' : Sys) (hstep : SysStep s s') (ih : SysValid s) :
    SysValid s' := by
  obtain ⟨ihq, iha, ihs⟩ := ih
  cases hstep with
  | enqueue h =>
    rw [enqueueResult]
    by_cases hv : isValidHit h
    · rw [if_pos hv]
      refine ⟨?_, iha, ihs⟩
      intro x hx
      rcases List.mem_append.mp hx with hx | hx
      · exact ihq x hx
      · simp at hx
        subst hx
        exact (isValidHit_iff x).mp hv
    · rw [if_neg hv]
      exact ⟨ihq, iha, ihs⟩
  | spawn =>
    refine ⟨ihq, ?_, ihs⟩
    intro p hp b hb
    rcases List.mem_append.mp hp with hp | hp
    · exact iha p hp b hb
    · simp at hp
      rw [hp] at hb
      cases hb
  | acquire i hl hw =>
    refine ⟨?_, ?_, ihs⟩
    · intro x hx
      exact ihq x (List.mem_of_mem_drop hx)
    · intro p hp b hb
      rcases List.mem_or_eq_of_mem_set hp with hp | hp
      · exact iha p hp b hb
      · rw [hp] at hb
        cases hb
        intro x hx
        exact ihq x (List.mem_of_mem_take hx)
  | settleOk i b hr =>
    have hbv : allValid b := by
      have hmem : APhase.running b ∈ s.attempts := by
        obtain ⟨hlt, hget⟩ := List.getElem?_eq_some.mp hr
        rw [List.mem_iff_getElem]
        exact ⟨i, hlt, hget⟩
      exact iha _ hmem b rfl
    refine ⟨ihq, ?_, ?_⟩
    · intro p hp b2 hb2
      rcases List.mem_or_eq_of_mem_set hp with hp | hp
      · exact iha p hp b2 hb2
      · rw [hp] at hb2
        cases hb2
    · intro b2 hb2
      rcases List.mem_append.mp hb2 with hb2 | hb2
      · exact ihs b2 hb2
      · simp at hb2
        rw [hb2]
        exact hbv
  | settleFail i b hr =>
    have hbv : allValid b := by
      have hmem : APhase.running b ∈ s.attempts := by
        obtain ⟨hlt, hget⟩ := List.getElem?_eq_some.mp hr
        rw [List.mem_iff_getElem]
        exact ⟨i, hlt, hget⟩
      exact iha _ hmem b rfl
    refine ⟨?_, ?_, ihs⟩
    · intro x hx
      rcases List.mem_append.mp hx with hx | hx
      · exact hbv x hx
      · exact ihq x hx
    · intro p hp b2 hb2
      rcases List.mem_or_eq_of_mem_set hp with hp | hp
      · exact iha p hp b2 hb2
      · rw [hp] at hb2
        cases hb2

theorem sysValid_of_reach (s : Sys) (hs : SysReach s) : SysValid s := by
  induction hs with
  | init =>
    refine ⟨?_, ?_, ?_⟩ <;> simp [initSys, allValid]
  | step hprev hstep ih => exact sysValid_step _ _ hstep ih

/-! ## Lemmas: rate-budget bounds -/

theorem slots_step (s s' : CState) (hstep : CStep s s')
    (ih : 0 ≤ s.slots ∧ s.slots ≤ MAX_SLOTS) :
    0 ≤ s'.slots ∧ s'.slots ≤ MAX_SLOTS := by
  obtain ⟨ih0, ih20⟩ := ih
  cases hstep with
  | tick =>
    simp only [increment, MAX_SLOTS] at *
    constructor
    · omega
    · exact min_le_left _ _
  | offer e =>
    rw [collect]
    by_cases hd : s.disposed
    · simp [hd]
      exact ⟨ih0, ih20⟩
    · by_cases hs1 : s.slots < 1
      · simp [hd, hs1]
        exact ⟨ih0, ih20⟩
      · cases hc : convertToHit e with
        | some h =>
          simp only [hd, hs1, hc, if_false, if_neg, Bool.false_eq_true]
          simp [MAX_SLOTS] at *
          omega
        | none =>
          simp [hd, hs1, hc]
          exact ⟨ih0, ih20⟩
  | disp =>
    simp only [dispose]
    exact ⟨ih0, ih20⟩

theorem slots_of_reach (s : CState) (hs : CReach s) :
    0 ≤ s.slots ∧ s.slots ≤ MAX_SLOTS := by
  induction hs with
  | init interval => simp [initC, MAX_SLOTS]
  | step hprev hstep ih => exact slots_step _ _ hstep ih

/-! ## Lemmas: hit objects and dimension copying -/

theorem hitGet_setKey_self (m : Hit) (k : String) (v : JVal) :
    hitGet (setKey m k v) k = some v := by
  induction m with
  | nil => simp [setKey, hitGet]
  | cons kv t ih =>
    rw [setKey]
    by_cases hk : (kv.fst == k) = true
    · rw [if_pos hk]
      simp [hitGet]
    · rw [if_neg (by simpa using hk)]
      rw [hitGet, List.find?]
      rw [hitGet] at ih
      simp only [hk]
      exact ih

theorem hitGet_setKey_other (m : Hit) (k k2 : String) (v : JVal) (hne : k2 ≠ k) :
    hitGet (setKey m k v) k2 = hitGet m k2 := by
  induction m with
  | nil =>
    have h1 : (k == k2) = false := by
      simp
      intro habs
      exact absurd habs.symm hne
    simp [setKey, hitGet, List.find?, h1]
  | cons kv t ih =>
    rw [setKey]
    by_cases hk : (kv.fst == k) = true
    · rw [if_pos hk]
      have hkeq : kv.fst = k := by simpa using hk
      rw [hitGet, hitGet, List.find?, List.find?]
      have h1 : (k == k2) = false := by
        simp
        intro habs
        exact absurd habs.symm hne
      have h2 : (kv.fst == k2) = false := by
        simp [hkeq]
        intro habs
        exact absurd habs.symm hne
      rw [h1, h2]
    · rw [if_neg (by simpa using hk)]
      rw [hitGet, hitGet, List.find?, List.find?]
      cases hk2 : (kv.fst == k2) with
      | true => simp
      | false =>
        simp only []
        rw [hitGet] at ih
        exact ih

theorem dims_go_preserve (data : List (String × JVal)) :
    ∀ (acc : Hit) (k : String), (∀ kv ∈ data, kv.fst ≠ k) →
      hitGet (data.foldl onlyDimensions acc) k = hitGet acc k := by
  induction data with
  | nil => intro acc k _; rfl
  | cons kv rest ih =>
    intro acc k hk
    rw [List.foldl_cons]
    have hne : kv.fst ≠ k := hk kv (List.mem_cons_self kv rest)
    have hrest : ∀ kv2 ∈ rest, kv2.fst ≠ k := fun kv2 h2 => hk kv2 (List.mem_cons_of_mem kv h2)
    rw [ih _ k hrest]
    rw [onlyDimensions]
    by_cases hd : isDimensionKey kv.fst
    · rw [if_pos hd]
      exact hitGet_setKey_other acc kv.fst k (coerceDim kv.snd) (fun habs => hne habs.symm)
    · rw [if_neg hd]

theorem dims_go_mem (data : List (String × JVal)) :
    ∀ (acc : Hit) (k : String) (v : JVal),
      (data.map Prod.fst).Nodup → (k, v) ∈ data → isDimensionKey k = true →
      hitGet (data.foldl onlyDimensions acc) k = some (coerceDim v) := by
  induction data with
  | nil => intro acc k v _ hmem _; cases hmem
  | cons kv rest ih =>
    intro acc k v hnd hmem hdim
    rw [List.foldl_cons]
    have hnd2 : kv.fst ∉ rest.map Prod.fst ∧ (rest.map Prod.fst).Nodup := by
      rw [List.map_cons] at hnd
      exact List.nodup_cons.mp hnd
    rcases List.mem_cons.mp hmem with heq | hmem2
    · subst heq
      have hrest : ∀ kv2 ∈ rest, kv2.fst ≠ k := by
        intro kv2 h2 habs
        have hmm : kv2.fst ∈ rest.map Prod.fst := List.mem_map_of_mem Prod.fst h2
        rw [habs] at hmm
        exact hnd2.1 hmm
      rw [dims_go_preserve rest _ k hrest]
      rw [onlyDimensions, if_pos hdim]
      exact hitGet_setKey_self acc k (coerceDim v)
    · exact ih _ k v hnd2.2 hmem2 hdim

theorem dims_go_nondim (data : List (String × JVal)) :
    ∀ (acc : Hit) (k : String), isDimensionKey k = false →
      hitGet acc k = none →
      hitGet (data.foldl onlyDimensions acc) k = none := by
  induction data with
  | nil => intro acc k _ hacc; exact hacc
  | cons kv rest ih =>
    intro acc k hk hacc
    rw [List.foldl_cons]
    refine ih _ k hk ?_
    rw [onlyDimensions]
    by_cases hd : isDimensionKey kv.fst
    · rw [if_pos hd]
      rw [hitGet_setKey_other acc kv.fst k (coerceDim kv.snd) ?_]
      · exact hacc
      · intro habs
        rw [habs] at hk
        rw [hk] at hd
        cases hd
    · rw [if_neg hd]
      exact hacc

theorem hitGet_dims_nondim (data : List (String × JVal)) (k : String)
    (hk : isDimensionKey k = false) : hitGet (dims data) k = none := by
  exact dims_go_nondim data [] k hk rfl

theorem keys_setKey_subset (m : Hit) (k : String) (v : JVal) :
    ∀ a, a ∈ (setKey m k v).map Prod.fst → a ∈ m.map Prod.fst ∨ a = k := by
  induction m with
  | nil =>
    intro a ha
    simp [setKey] at ha
    exact Or.inr ha
  | cons kv t ih =>
    intro a ha
    rw [setKey] at ha
    by_cases hk : (kv.fst == k) = true
    · rw [if_pos hk] at ha
      simp at ha
      rcases ha with ha | ha
      · exact Or.inr ha
      · exact Or.inl (by simp [ha])
    · rw [if_neg (by simpa using hk)] at ha
      simp at ha
      rcases ha with ha | ha
      · exact Or.inl (by simp [ha])
      · rcases ih a (by simpa using ha) with h2 | h2
        · exact Or.inl (by simp; right; simpa using h2)
        · exact Or.inr h2

theorem nodupKeys_setKey (m : Hit) (k : String) (v : JVal)
    (hnd : (m.map Prod.fst).Nodup) : ((setKey m k v).map Prod.fst).Nodup := by
  induction m with
  | nil => simp [setKey]
  | cons kv t ih =>
    rw [setKey]
    by_cases hk : (kv.fst == k) = true
    · rw [if_pos hk]
      have hkeq : kv.fst = k := by simpa using hk
      simp only [List.map_cons, List.nodup_cons] at hnd ⊢
      rw [← hkeq]
      exact hnd
    · rw [if_neg (by simpa using hk)]
      simp only [List.map_cons, List.nodup_cons] at hnd ⊢
      obtain ⟨hnmem, hndt⟩ := hnd
      refine ⟨?_, ih hndt⟩
      intro habs
      rcases keys_setKey_subset t k v kv.fst habs with h2 | h2
      · exact hnmem h2
      · rw [h2] at hk
        simp at hk

theorem nodupKeys_dims_go (data : List (String × JVal)) :
    ∀ acc : Hit, (acc.map Prod.fst).Nodup →
      ((data.foldl onlyDimensions acc).map Prod.fst).Nodup := by
  induction data with
  | nil => intro acc h; exact h
  | cons kv rest ih =>
    intro acc h
    rw [List.foldl_cons]
    refine ih _ ?_
    rw [onlyDimensions]
    by_cases hd : isDimensionKey kv.fst
    · rw [if_pos hd]
      exact nodupKeys_setKey acc kv.fst (coerceDim kv.snd) h
    · rw [if_neg hd]
      exact h

theorem mem_of_hitGet (d : Hit) (k : String) (v : JVal)
    (h : hitGet d k = some v) : (k, v) ∈ d := by
  rw [hitGet] at h
  cases hf : d.find? (fun kv => kv.fst == k) with
  | none => rw [hf] at h; cases h
  | some kv =>
    rw [hf] at h
    simp at h
    have hmem := List.mem_of_find?_eq_some hf
    have hp := List.find?_some hf
    simp at hp
    have : kv = (k, v) := by
      cases kv with
      | mk a b => simp at hp h; rw [hp, h]
    rw [this] at hmem
    exact hmem

theorem assign_preserve (d : Hit) :
    ∀ (h : Hit) (k : String), (∀ kv ∈ d, kv.fst ≠ k) →
      hitGet (assign h d) k = hitGet h k := by
  induction d with
  | nil => intro h k _; rfl
  | cons kv rest ih =>
    intro h k hk
    rw [assign, List.foldl_cons]
    have hne : kv.fst ≠ k := hk kv (List.mem_cons_self kv rest)
    have hrest : ∀ kv2 ∈ rest, kv2.fst ≠ k := fun kv2 h2 => hk kv2 (List.mem_cons_of_mem kv h2)
    rw [show rest.foldl (fun acc kv2 => setKey acc kv2.fst kv2.snd) (setKey h kv.fst kv.snd) =
        assign (setKey h kv.fst kv.snd) rest from rfl]
    rw [ih _ k hrest]
    exact hitGet_setKey_other h kv.fst k kv.snd (fun habs => hne habs.symm)

theorem assign_mem (d : Hit) :
    ∀ (h : Hit) (k : String) (v : JVal),
      (d.map Prod.fst).Nodup → (k, v) ∈ d →
      hitGet (assign h d) k = some v := by
  induction d with
  | nil => intro h k v _ hmem; cases hmem
  | cons kv rest ih =>
    intro h k v hnd hmem
    rw [assign, List.foldl_cons]
    rw [show rest.foldl (fun acc kv2 => setKey acc kv2.fst kv2.snd) (setKey h kv.fst kv.snd) =
        assign (setKey h kv.fst kv.snd) rest from rfl]
    have hnd2 : kv.fst ∉ rest.map Prod.fst ∧ (rest.map Prod.fst).Nodup := by
      rw [List.map_cons] at hnd
      exact List.nodup_cons.mp hnd
    rcases List.mem_cons.mp hmem with heq | hmem2
    · subst heq
      have hrest : ∀ kv2 ∈ rest, kv2.fst ≠ k := by
        intro kv2 h2 habs
        have hmm : kv2.fst ∈ rest.map Prod.fst := List.mem_map_of_mem Prod.fst h2
        rw [habs] at hmm
        exact hnd2.1 hmm
      rw [assign_preserve rest _ k hrest]
      exact hitGet_setKey_self h k v
    · exact ih _ k v hnd2.2 hmem2

theorem hitGet_withDimensions (e : Entry) (h : Hit) (k : String) (v : JVal)
    (hnd : (((dataOf e).getD []).map Prod.fst).Nodup)
    (hmem : (k, v) ∈ (dataOf e).getD [])
    (hdim : isDimensionKey k = true) :
    hitGet (withDimensions h e) k = some (coerceDim v) := by
  rw [withDimensions]
  have hlook : hitGet (dims ((dataOf e).getD [])) k = some (coerceDim v) :=
    dims_go_mem _ [] k v hnd hmem hdim
  have hnddims : ((dims ((dataOf e).getD [])).map Prod.fst).Nodup :=
    nodupKeys_dims_go _ [] (by simp)
  exact assign_mem _ h k (coerceDim v) hnddims (mem_of_hitGet _ k _ hlook)

/-! ## Remaining helper lemmas -/

theorem mem_setKey (m : Hit) (k : String) (v : JVal) :
    ∀ kv, kv ∈ setKey m k v → kv ∈ m ∨ kv = (k, v) := by
  induction m with
  | nil =>
    intro kv hkv
    simp [setKey] at hkv
    exact Or.inr hkv
  | cons kv0 t ih =>
    intro kv hkv
    rw [setKey] at hkv
    by_cases hk : (kv0.fst == k) = true
    · rw [if_pos hk] at hkv
      rcases List.mem_cons.mp hkv with h2 | h2
      · exact Or.inr h2
      · exact Or.inl (List.mem_cons_of_mem kv0 h2)
    · rw [if_neg (by simpa using hk)] at hkv
      rcases List.mem_cons.mp hkv with h2 | h2
      · exact Or.inl (by rw [h2]; exact List.mem_cons_self kv0 t)
      · rcases ih kv h2 with h3 | h3
        · exact Or.inl (List.mem_cons_of_mem kv0 h3)
        · exact Or.inr h3

theorem dims_keys_dimension (data : List (String × JVal)) :
    ∀ acc : Hit, (∀ kv ∈ acc, isDimensionKey kv.fst = true) →
      ∀ kv ∈ data.foldl onlyDimensions acc, isDimensionKey kv.fst = true := by
  induction data with
  | nil => intro acc hacc; exact hacc
  | cons kv0 rest ih =>
    intro acc hacc
    rw [List.foldl_cons]
    refine ih _ ?_
    rw [onlyDimensions]
    by_cases hd : isDimensionKey kv0.fst
    · rw [if_pos hd]
      intro kv hkv
      rcases mem_setKey acc kv0.fst (coerceDim kv0.snd) kv hkv with h2 | h2
      · exact hacc kv h2
      · rw [h2]
        exact hd
    · rw [if_neg hd]
      exact hacc

theorem hitGet_withDimensions_base (e : Entry) (base : Hit) (k : String)
    (hk : isDimensionKey k = false) :
    hitGet (withDimensions base e) k = hitGet base k := by
  rw [withDimensions]
  apply assign_preserve
  intro kv hkv habs
  have hdim := dims_keys_dimension _ [] (by simp) kv hkv
  rw [habs, hk] at hdim
  cases hdim

theorem reach_failedState : SysReach failedState := by
  have h1 : SysReach (enqueueResult initSys "a") :=
    SysReach.step SysReach.init (SysStep.enqueue initSys "a")
  have h2 : SysReach (enqueueResult (enqueueResult initSys "a") "b") :=
    SysReach.step h1 (SysStep.enqueue _ "b")
  have h3 : SysReach (spawnResult (enqueueResult (enqueueResult initSys "a") "b")) :=
    SysReach.step h2 (SysStep.spawn _)
  have h4 : SysReach failMidState :=
    SysReach.step h3 (SysStep.acquire _ 0 (by decide) (by decide))
  exact SysReach.step h4 (SysStep.settleFail _ 0 ["a", "b"] (by decide))

theorem reach_recoveredState : SysReach recoveredState := by
  have h5 : SysReach (enqueueResult failedState "c") :=
    SysReach.step reach_failedState (SysStep.enqueue _ "c")
  have h6 : SysReach (spawnResult (enqueueResult failedState "c")) :=
    SysReach.step h5 (SysStep.spawn _)
  have h7 : SysReach (acquireResult (spawnResult (enqueueResult failedState "c")) 1) :=
    SysReach.step h6 (SysStep.acquire _ 1 (by decide) (by decide))
  exact SysReach.step h7 (SysStep.settleOk _ 1 ["a", "b", "c"] (by decide))

/-! ## Claim theorems -/

/-- Claim C1: when a send attempt acquires the lock, the batch extracted
and passed to the transport is exactly the first
`n = min(20, indexBySize(queue, 16384))` items removed from the front of
the queue; the batch holds at most 20 hits, its newline-joined payload is
at most 16384 characters, and the remaining items stay in the queue in
order (batch ++ new queue = old queue, so nothing is lost). -/
theorem c1_batch_extraction (s : Sys) (i : Nat)
    (hl : s.lock = true) (hw : s.attempts[i]? = some APhase.waiting) :
    SysStep s (acquireResult s i) ∧
    batchCount s.queue = min MAX_HITS_PER_BATCH (indexBySize s.queue MAX_BATCH_SIZE_KB) ∧
    (acquireResult s i).attempts[i]? =
      some (APhase.running (s.queue.take (batchCount s.queue))) ∧
    (acquireResult s i).queue = s.queue.drop (batchCount s.queue) ∧
    s.queue.take (batchCount s.queue) ++ (acquireResult s i).queue = s.queue ∧
    (s.queue.take (batchCount s.queue)).length ≤ 20 ∧
    (joinN (s.queue.take (batchCount s.queue))).length ≤ 16384 := by
  have hlt : i < s.attempts.length := (List.getElem?_eq_some.mp hw).1
  refine ⟨SysStep.acquire s i hl hw, rfl, ?_, rfl, ?_, ?_, ?_⟩
  · simp [acquireResult, List.getElem?_set_self', hlt]
  · exact List.take_append_drop _ _
  · rw [List.length_take]
    have h1 : batchCount s.queue ≤ 20 := min_le_left _ _
    have h2 : min (batchCount s.queue) s.queue.length ≤ batchCount s.queue :=
      min_le_left _ _
    omega
  · rw [joinN_length]
    have h1 : batchCount s.queue ≤ indexBySize s.queue MAX_BATCH_SIZE_KB :=
      min_le_right _ _
    have h2 := jlen_take_mono s.queue _ _ h1
    have h3 := jlen_take_indexBySize s.queue MAX_BATCH_SIZE_KB
    have h4 : MAX_BATCH_SIZE_KB = 16384 := rfl
    omega

/-- Witness for C1 at a concrete ready state. -/
theorem c1_batch_extraction_witness :
    readyState.lock = true ∧
    readyState.attempts[0]? = some APhase.waiting ∧
    (readyState.queue.take (batchCount readyState.queue)).length ≤ 20 ∧
    readyState.queue.take (batchCount readyState.queue) ++
      (acquireResult readyState 0).queue = readyState.queue := by
  refine ⟨by decide, by decide, ?_, ?_⟩
  · exact (c1_batch_extraction readyState 0 (by decide) (by decide)).2.2.2.2.2.1
  · exact (c1_batch_extraction readyState 0 (by decide) (by decide)).2.2.2.2.1

/-- Claim C5: `indexBySize(array, size)` returns the largest `n` (capped
at the array length) such that joining the first `n` items with the
one-character separator stays within `size`. -/
theorem c5_indexBySize_characterization (q : List String) (size : Nat) :
    indexBySize q size ≤ q.length ∧
    (joinN (q.take (indexBySize q size))).length ≤ size ∧
    (∀ m, m ≤ q.length → (joinN (q.take m)).length ≤ size →
      m ≤ indexBySize q size) := by
  refine ⟨indexBySize_le_length q size, ?_, ?_⟩
  · rw [joinN_length]
    exact jlen_take_indexBySize q size
  · intro m hm hfit
    rw [joinN_length] at hfit
    exact indexBySize_maximal q size m hm hfit

/-- Witness for C5 on a concrete array and size limit. -/
theorem c5_indexBySize_characterization_witness :
    indexBySize ["ab", "c"] 4 ≤ 2 ∧
    (joinN ((["ab", "c"] : List String).take (indexBySize ["ab", "c"] 4))).length ≤ 4 ∧
    2 ≤ indexBySize ["ab", "c"] 4 := by
  refine ⟨(c5_indexBySize_characterization ["ab", "c"] 4).1,
          (c5_indexBySize_characterization ["ab", "c"] 4).2.1,
          (c5_indexBySize_characterization ["ab", "c"] 4).2.2 2 (by decide) (by decide)⟩

/-- Claim C3: the send lock guarantees at most one in-flight transmission
in every reachable state (and none while the lock signal is set, so an
attempt that becomes ready while a send is outstanding cannot extract its
batch before the release), and both settle transitions — fulfilment and
rejection, the latter covering thrown exceptions — set the signal back. -/
theorem c3_send_mutual_exclusion :
    (∀ s : Sys, SysReach s →
       runningCount s ≤ 1 ∧ (s.lock = true → runningCount s = 0)) ∧
    (∀ (s : Sys) (i : Nat) (b : List String),
       (settleOkResult s i b).lock = true ∧ (settleFailResult s i b).lock = true) :=
  ⟨fun s hs => mutexInv_of_reach s hs, fun _ _ _ => ⟨rfl, rfl⟩⟩

/-- Witness for C3 at the initial state. -/
theorem c3_send_mutual_exclusion_witness :
    SysReach initSys ∧
    runningCount initSys ≤ 1 ∧ (initSys.lock = true → runningCount initSys = 0) :=
  ⟨SysReach.init, c3_send_mutual_exclusion.1 initSys SysReach.init⟩

/-- Claim C6: `isValidHit` accepts exactly the payloads of length at most
8192; an oversized payload leaves the whole state unchanged at enqueue
time (silent drop, no error recorded), a payload of exactly 8192
characters is appended to the queue, and every payload of every
transmitted batch in every reachable state is within the cap — so an
oversized hit never appears in any transmitted batch. -/
theorem c6_hit_size_filter :
    (∀ h : String, isValidHit h = true ↔ h.length ≤ 8192) ∧
    (∀ (s : Sys) (h : String), 8193 ≤ h.length → enqueueResult s h = s) ∧
    (∀ (s : Sys) (h : String), h.length ≤ 8192 →
       (enqueueResult s h).queue = s.queue ++ [h]) ∧
    (∀ s : Sys, SysReach s → ∀ b ∈ s.sent, ∀ h ∈ b, h.length ≤ 8192) := by
  refine ⟨fun h => isValidHit_iff h, ?_, ?_, ?_⟩
  · intro s h hlen
    rw [enqueueResult, if_neg]
    intro habs
    have := (isValidHit_iff h).mp habs
    rw [MAX_HIT_SIZE_KB] at this
    omega
  · intro s h hlen
    rw [enqueueResult, if_pos ((isValidHit_iff h).mpr hlen)]
  · intro s hs b hb h hh
    exact (sysValid_of_reach s hs).2.2 b hb h hh

/-- Witness for C6 with concrete payloads of 8193 and 8192 characters. -/
theorem c6_hit_size_filter_witness :
    8193 ≤ oversizedHit.length ∧
    enqueueResult initSys oversizedHit = initSys ∧
    maxSizeHit.length ≤ 8192 ∧
    (enqueueResult initSys maxSizeHit).queue = [maxSizeHit] ∧
    SysReach initSys ∧ (∀ b ∈ initSys.sent, ∀ h ∈ b, h.length ≤ 8192) := by
  have hbig : oversizedHit.length = 8193 := by
    rw [oversizedHit, String.length_mk, List.length_replicate]
  have hmax : maxSizeHit.length = 8192 := by
    rw [maxSizeHit, String.length_mk, List.length_replicate]
  refine ⟨by omega, c6_hit_size_filter.2.1 initSys oversizedHit (by omega),
          by omega, ?_, SysReach.init,
          c6_hit_size_filter.2.2.2 initSys SysReach.init⟩
  rw [c6_hit_size_filter.2.2.1 initSys maxSizeHit (by omega)]
  rfl

/-- Claim C2 (counterexample): in a reachable execution a transport
rejection re-queues the failed batch `["a","b"]` at the front of the
queue, yet the operator-visible error channel stays empty — the `catch`
block swallows the error, so the claim's "the failure is also reported
to an operator-visible error channel" is false. -/
theorem c2_counterexample :
    SysReach failedState ∧
    failMidState.attempts[0]? = some (APhase.running ["a", "b"]) ∧
    failedState.queue = ["a", "b"] ∧
    failedState.errors = [] :=
  ⟨reach_failedState, by decide, by decide, by decide⟩

/-- Claim C2 as amended: on transport failure the entire batch is
re-inserted at the front of the queue in its original internal order and
no failure report is emitted (the error is swallowed); in the concrete
fail-once-then-succeed run, the failed batch `["a","b"]` appears in the
later successful batch in original order, ahead of the payload `"c"`
enqueued after the failure. -/
theorem c2_amended_requeue :
    (∀ (s : Sys) (i : Nat) (b : List String),
        (settleFailResult s i b).queue = b ++ s.queue ∧
        (settleFailResult s i b).errors = s.errors) ∧
    SysReach recoveredState ∧
    recoveredState.sent = [["a", "b", "c"]] ∧
    recoveredState.queue = [] ∧
    recoveredState.errors = [] :=
  ⟨fun _ _ _ => ⟨rfl, rfl⟩, reach_recoveredState, by decide, by decide, by decide⟩

/-- Claim C4: `slots` starts at 20, each tick adds 2 capped at 20, each
accepted hit decrements it by exactly 1, and every reachable collector
state satisfies `0 ≤ slots ≤ 20`. -/
theorem c4_slots_bounds :
    (∀ interval : Nat, (initC interval).slots = 20) ∧
    (∀ s : CState, (increment s).slots = min 20 (s.slots + 2)) ∧
    (∀ (s : CState) (e : Entry) (h : Hit),
        s.disposed = false → ¬ s.slots < 1 → convertToHit e = some h →
        (collect s e).fst.slots = s.slots - 1) ∧
    (∀ s : CState, CReach s → 0 ≤ s.slots ∧ s.slots ≤ 20) := by
  refine ⟨fun _ => rfl, fun _ => rfl, ?_, ?_⟩
  · intro s e h hd hs hc
    rw [collect]
    simp [hd, hs, hc]
  · intro s hs
    exact slots_of_reach s hs

/-- Witness for C4 at a freshly constructed collector accepting the
concrete event entry. -/
theorem c4_slots_bounds_witness :
    (collect (initC 7) eventEntryLACV).fst.slots = (initC 7).slots - 1 ∧
    0 ≤ (initC 7).slots ∧ (initC 7).slots ≤ 20 :=
  ⟨c4_slots_bounds.2.2.1 (initC 7) eventEntryLACV hitLACV rfl (by decide) (by decide),
   c4_slots_bounds.2.2.2 (initC 7) (CReach.init 7)⟩

/-- Claim C7: while active with `slots = 0`, `collect` consumes no slot,
converts nothing, and reschedules the exact entry for a retry after one
tick interval; after a single replenishment tick the retried entry is
admitted (a slot is consumed and the converted hit is sent). -/
theorem c7_zero_slots_reschedule (s : CState) (e : Entry)
    (hd : s.disposed = false) (hs : s.slots = 0) :
    collect s e = (s, CEffect.reschedule s.interval e) ∧
    (∀ h : Hit, convertToHit e = some h →
      (collect (increment s) e).snd = CEffect.sendToGa h ∧
      (collect (increment s) e).fst.slots = 1) := by
  constructor
  · rw [collect]
    simp [hd, hs]
  · intro h hc
    have hinc : (increment s).slots = 2 := by
      have : (increment s).slots = min MAX_SLOTS (s.slots + 2) := rfl
      rw [this, hs]
      decide
    have hd2 : (increment s).disposed = false := hd
    rw [collect]
    simp [hd2, hinc, hc]

/-- Witness for C7 at a concrete zero-budget state with the concrete
event entry. -/
theorem c7_zero_slots_reschedule_witness :
    collect zeroSlotState eventEntryLACV =
      (zeroSlotState, CEffect.reschedule 7 eventEntryLACV) ∧
    (collect (increment zeroSlotState) eventEntryLACV).snd =
      CEffect.sendToGa hitLACV :=
  ⟨(c7_zero_slots_reschedule zeroSlotState eventEntryLACV rfl rfl).1,
   ((c7_zero_slots_reschedule zeroSlotState eventEntryLACV rfl rfl).2
     hitLACV (by decide)).1⟩

/-- Claim C10: an entry that converts to no hit, offered while active
with at least one slot, leaves the collector state unchanged and
performs no action (no slot consumed, nothing enqueued or scheduled). -/
theorem c10_no_hit_frame (s : CState) (e : Entry)
    (hd : s.disposed = false) (hs : 1 ≤ s.slots)
    (hc : convertToHit e = none) :
    collect s e = (s, CEffect.noop) := by
  rw [collect]
  simp [hd, hc, show ¬ s.slots < 1 by omega]

/-- Witness for C10: a fresh collector offered a non-object entry. -/
theorem c10_no_hit_frame_witness :
    convertToHit Entry.atom = none ∧
    collect (initC 9) Entry.atom = (initC 9, CEffect.noop) :=
  ⟨by decide, c10_no_hit_frame (initC 9) Entry.atom rfl (by decide) (by decide)⟩

/-- Claim C8 (counterexample): converting
`{type:'event', label:'L', data:{action:'A', category:'C', value:5}}`
yields `eventLabel:'A'` — the source takes `eventLabel` from
`data.label` falling back to `data.action`, never from the entry's
`label` — so the claimed `eventLabel:'L'` is false. -/
theorem c8_counterexample :
    convertToHit eventEntryLACV = some hitLACV ∧
    hitGet hitLACV "eventLabel" = some (JVal.str "A") ∧
    ¬ hitGet hitLACV "eventLabel" = some (JVal.str "L") :=
  ⟨by decide, by decide, by decide⟩

/-- Claim C8 as amended: the conversion yields `hitType:'event'`,
`eventAction:'A'`, `eventCategory:'C'`, `eventValue:5` and
`eventLabel:'A'`, `eventLabel` being taken from `data.label` with
fallback to `data.action` for every event entry. -/
theorem c8_amended_event_mapping :
    convertToHit eventEntryLACV = some hitLACV ∧
    hitGet hitLACV "hitType" = some (JVal.str "event") ∧
    hitGet hitLACV "eventAction" = some (JVal.str "A") ∧
    hitGet hitLACV "eventCategory" = some (JVal.str "C") ∧
    hitGet hitLACV "eventValue" = some (JVal.num 5) ∧
    hitGet hitLACV "eventLabel" = some (JVal.str "A") ∧
    (∀ e : Entry, typeOf e = JVal.str "event" →
       hitGet ((asEvent e).getD []) "eventLabel" =
         some (getOr (dataGet e "label") (dataGet e "action"))) := by
  refine ⟨by decide, by decide, by decide, by decide, by decide, by decide, ?_⟩
  intro e ht
  rw [asEvent, if_pos ht, Option.getD_some]
  rw [hitGet_withDimensions_base e _ "eventLabel" (by decide)]
  have k1 : ("hitType" == "eventLabel") = false := by decide
  have k2 : ("eventAction" == "eventLabel") = false := by decide
  have k3 : ("eventLabel" == "eventLabel") = true := by decide
  simp [hitGet, List.find?, k1, k2, k3]

/-- Witness for the amended C8 general `eventLabel` rule at the concrete
scenario entry. -/
theorem c8_amended_event_mapping_witness :
    hitGet ((asEvent eventEntryLACV).getD []) "eventLabel" =
      some (getOr (dataGet eventEntryLACV "label") (dataGet eventEntryLACV "action")) :=
  c8_amended_event_mapping.2.2.2.2.2.2 eventEntryLACV (by decide)

/-- Claim C9 (counterexample): a numeric dimension value is not copied
verbatim — `{type:'event', data:{dimension1:5}}` produces a hit whose
`dimension1` is the string `"5"` (the source applies `String(value)`),
not the number `5`. -/
theorem c9_counterexample :
    ("dimension1", JVal.num 5) ∈ (dataOf numericDimensionEntry).getD [] ∧
    hitGet ((convertToHit numericDimensionEntry).getD []) "dimension1" =
      some (JVal.str "5") ∧
    ¬ hitGet ((convertToHit numericDimensionEntry).getD []) "dimension1" =
      some (JVal.num 5) :=
  ⟨by decide, by decide, by decide⟩

/-- Claim C9 as amended: every `data` key matching `dimension<N>` is
copied into the hit with its value passed through
`value == null ? null : String(value)` — string values verbatim, other
values coerced to their string form, `null`/`undefined` preserved as an
explicit null — and every non-matching `data` key is omitted from the
dimension copy. -/
theorem c9_amended_dimension_copy :
    (∀ (e : Entry) (h : Hit) (k : String) (v : JVal),
        (((dataOf e).getD []).map Prod.fst).Nodup →
        (k, v) ∈ (dataOf e).getD [] →
        isDimensionKey k = true →
        hitGet (withDimensions h e) k = some (coerceDim v)) ∧
    (∀ (data : List (String × JVal)) (k : String),
        isDimensionKey k = false → hitGet (dims data) k = none) ∧
    coerceDim JVal.null = JVal.null ∧
    coerceDim JVal.undef = JVal.null ∧
    (∀ t : String, coerceDim (JVal.str t) = JVal.str t) := by
  refine ⟨hitGet_withDimensions,
          fun data k hk => hitGet_dims_nondim data k hk,
          by decide, by decide, ?_⟩
  intro t
  rw [coerceDim, if_neg]
  · rfl
  · simp

/-- Witness for the amended C9 at a concrete numeric dimension and a
concrete non-dimension key. -/
theorem c9_amended_dimension_copy_witness :
    hitGet (withDimensions [] numericDimensionEntry) "dimension1" =
      some (coerceDim (JVal.num 5)) ∧
    hitGet (dims [("action", JVal.str "A")]) "action" = none :=
  ⟨c9_amended_dimension_copy.1 numericDimensionEntry [] "dimension1" (JVal.num 5)
     (by decide) (by decide) (by decide),
   c9_amended_dimension_copy.2.1 [("action", JVal.str "A")] "action" (by decide)⟩

end CollectorGA
